import Mathlib

/-!
# Verification of the moderated chat client (`src/final.py`)

Shallow embedding of the moderation pipeline of `final.py`:

* strings are `List Char`; Python `s.lower()` is `lower` (character-wise
  `Char.toLower`, adequate for the ASCII vocabulary of the source);
* the Python substring test `needle in hay` is `containsSub hay needle`;
* `re.compile(re.escape(kw), re.IGNORECASE).sub("[REDACTED]", text)` is
  `subCI kw redactedMarker text` (leftmost, non-overlapping, case-insensitive
  replacement of the literal keyword; an empty keyword matches the empty
  string at every position, as in the Python re module);
* `ModerationSystem.check_input` is `check_input`,
  `ModerationSystem.moderate_output` is `moderate_output`;
* `AIChat.send_message` is `send_message`, with the single external HTTP
  call abstracted as an `ApiOutcome` value and an uncaught Python exception
  modelled by the `SendOutcome.raises` result.
-/

/-- Python `text.lower()`, character-wise. -/
def lower (s : List Char) : List Char := s.map Char.toLower

/-- Literal (case-sensitive) anchored match: does `needle` occur at the
front of `hay`? -/
def matchesFront : List Char → List Char → Bool
  | [], _ => true
  | _ :: _, [] => false
  | n :: ns, h :: hs => n == h && matchesFront ns hs

/-- Python `needle in hay` for strings: `needle` occurs as a contiguous
substring of `hay` (the empty string occurs in every string). -/
def containsSub : List Char → List Char → Bool
  | [], needle => needle.isEmpty
  | h :: t, needle => matchesFront needle (h :: t) || containsSub t needle

/-- Case-insensitive anchored match of the keyword `kw` at the front of
`text`: each keyword character must equal the lowercased text character.
This is the matching performed by `re.compile(re.escape(kw), re.IGNORECASE)`
for a lowercase keyword. -/
def startsWithCI : List Char → List Char → Bool
  | [], _ => true
  | _ :: _, [] => false
  | k :: ks, c :: cs => k == c.toLower && startsWithCI ks cs

/-- Case-insensitive occurrence of `kw` anywhere in `text`. -/
def occursCI (kw : List Char) : List Char → Bool
  | [] => kw.isEmpty
  | c :: rest => startsWithCI kw (c :: rest) || occursCI kw rest

/-- The module-level `BANNED_KEYWORDS` list of `final.py`. -/
def BANNED_KEYWORDS : List (List Char) :=
  ["kill".data, "murder".data, "hack".data, "bomb".data, "exploit".data,
   "steal".data, "drug".data, "weapon".data, "terror".data, "abuse".data,
   "scam".data, "fraud".data, "suicide".data, "self-harm".data,
   "violence".data, "illegal".data]

/-- The module-level `SENSITIVE_PATTERNS` list of `final.py`. -/
def SENSITIVE_PATTERNS : List (List Char) :=
  ["how to make".data, "how do i".data, "teach me to".data, "help me".data,
   "instructions for".data, "guide to".data, "steps to".data]

/-- The replacement marker `"[REDACTED]"`. -/
def redactedMarker : List Char := "[REDACTED]".data

/-- The ASCII apostrophe used in the rejection reason. -/
def quoteChar : Char := Char.ofNat 39

/-- Constructor of ModerationSystem: store a lowercase-normalised copy of the
banned keywords. -/
def mkModeration (banned_keywords : List (List Char)) : List (List Char) :=
  banned_keywords.map lower

/-- The reason string built by `check_input` when `keyword` matches. -/
def prohibitedReason (keyword : List Char) : List Char :=
  "Input contains prohibited content: ".data ++ [quoteChar] ++ keyword ++ [quoteChar]

/-- The reason string of the secondary sensitive-pattern branch. -/
def harmfulReason : List Char := "Input contains potentially harmful request".data

/-- The reason string of a passing input check. -/
def passedReason : List Char := "Input passed moderation".data

/-- First pass of `check_input`: the first banned keyword (in list order)
occurring in the lowercased text, if any. -/
def firstMatch (text_lower : List Char) : List (List Char) → Option (List Char)
  | [] => none
  | kw :: rest => if containsSub text_lower kw then some kw else firstMatch text_lower rest

/-- Inner loop of the second pass of `check_input`: does any banned keyword
occur in the lowercased text? -/
def anyKeywordIn (text_lower : List Char) : List (List Char) → Bool
  | [] => false
  | kw :: rest => containsSub text_lower kw || anyKeywordIn text_lower rest

/-- Second pass of `check_input`: some sensitive pattern occurs and some
banned keyword also occurs. -/
def anyPatternHit (text_lower : List Char) (kws : List (List Char)) :
    List (List Char) → Bool
  | [] => false
  | pat :: rest =>
    (containsSub text_lower pat && anyKeywordIn text_lower kws) ||
      anyPatternHit text_lower kws rest

/-- Embedding of `ModerationSystem.check_input` over the stored (lowercased) keyword list
`kws`: returns `(is_safe, reason)`. -/
def check_input (kws : List (List Char)) (text : List Char) : Bool × List Char :=
  let text_lower := lower text
  match firstMatch text_lower kws with
  | some keyword => (false, prohibitedReason keyword)
  | none =>
    if anyPatternHit text_lower kws SENSITIVE_PATTERNS then (false, harmfulReason)
    else (true, passedReason)

/-- Spec-side definition (refinement target for C4), following the words of the spec: a single-pass scan
that only tests each banned term against the lowercased text in vocabulary
order. -/
def checkInputSinglePass (kws : List (List Char)) (text : List Char) : Bool × List Char :=
  match firstMatch (lower text) kws with
  | some keyword => (false, prohibitedReason keyword)
  | none => (true, passedReason)

/-- Embedding of `re.compile(re.escape(kw), re.IGNORECASE).sub(marker, text)`: scan left
to right; on a match emit `marker` and resume after the matched span; an
empty keyword matches the empty string before every character and at the
end, as the Python re.sub function does. -/
def subCI (kw marker : List Char) : List Char → List Char
  | [] => if kw.isEmpty then marker else []
  | c :: rest =>
    if startsWithCI kw (c :: rest) then
      if kw.isEmpty then marker ++ c :: subCI kw marker rest
      else marker ++ subCI kw marker (rest.drop (kw.length - 1))
    else c :: subCI kw marker rest
termination_by t => t.length
decreasing_by
  · simp
  · simp [List.length_drop]
    omega
  · simp

/-- Structurally recursive runner for `subCI` (so that concrete instances
evaluate inside the kernel): `skip` counts matched characters still to be
consumed without being emitted. -/
def subCIGo (kw marker : List Char) : Nat → List Char → List Char
  | _ + 1, [] => []
  | skip + 1, _ :: rest => subCIGo kw marker skip rest
  | 0, [] => if kw.isEmpty then marker else []
  | 0, c :: rest =>
    if startsWithCI kw (c :: rest) then
      if kw.isEmpty then marker ++ c :: subCIGo kw marker 0 rest
      else marker ++ subCIGo kw marker (kw.length - 1) rest
    else c :: subCIGo kw marker 0 rest

/-- Executable form of `subCI`, used by `moderate_output`. -/
def subCIRun (kw marker text : List Char) : List Char :=
  subCIGo kw marker 0 text

/-- The unmatched gaps of the scan performed by `subCI` (proof helper):
`subCI kw marker text` is these gaps joined by copies of `marker`. -/
def splitCI (kw : List Char) : List Char → List (List Char)
  | [] => [[]]
  | c :: rest =>
    if startsWithCI kw (c :: rest) then
      [] :: splitCI kw (rest.drop (kw.length - 1))
    else
      match splitCI kw rest with
      | [] => [[c]]
      | g :: gs => (c :: g) :: gs
termination_by t => t.length
decreasing_by
  · simp [List.length_drop]
    omega
  · simp

/-- Join a list of gaps with a separator (proof helper). -/
def joinWith (sep : List Char) : List (List Char) → List Char
  | [] => []
  | [g] => g
  | g :: g2 :: gs => g ++ sep ++ joinWith sep (g2 :: gs)

/-- The keyword loop of `ModerationSystem.moderate_output`, threading the
current text and the `was_modified` flag. -/
def moderateLoop : List (List Char) → List Char → Bool → List Char × Bool
  | [], moderated_text, was_modified => (moderated_text, was_modified)
  | kw :: rest, moderated_text, was_modified =>
    if containsSub (lower moderated_text) kw then
      moderateLoop rest (subCIRun kw redactedMarker moderated_text) true
    else
      moderateLoop rest moderated_text was_modified

/-- Embedding of `ModerationSystem.moderate_output`: returns `(moderated_text, was_modified)`. -/
def moderate_output (kws : List (List Char)) (text : List Char) : List Char × Bool :=
  moderateLoop kws text false

/-- Spec-side definition (refinement target for C5), following the words of the spec: cumulative
redaction — for each banned term in fixed order, if it occurs
case-insensitively in the current text, replace all its occurrences with the
marker; the result of term `i` feeds term `i+1`. -/
def moderateOutputSpec (kws : List (List Char)) (text : List Char) : List Char :=
  kws.foldl
    (fun cur kw =>
      if containsSub (lower cur) kw then subCIRun kw redactedMarker cur else cur)
    text

/-- The tagged result of `AIChat.send_message` (the source returns a dict
with a `status` discriminator and these fields). -/
inductive ChatResult : Type
  | blocked (message reason moderation : List Char)
  | error (message moderation : List Char)
  | moderated (message moderation warning : List Char)
  | success (message moderation : List Char)
deriving DecidableEq

/-- Outcome of the single external HTTP call made inside the `try` block:
either a `requests.exceptions.RequestException` was raised (network error,
timeout, non-2xx via `raise_for_status`, invalid JSON body), or a parsed
response body was obtained, whose `choices[0].message.content` field is
present (`some reply`) or absent (`none`). -/
inductive ApiOutcome : Type
  | transportError (msg : List Char)
  | response (content : Option (List Char))
deriving DecidableEq

/-- How a call to `send_message` ends: a returned `ChatResult`, or an
uncaught Python exception escaping to the caller. -/
inductive SendOutcome : Type
  | returns (result : ChatResult)
  | raises
deriving DecidableEq

def blockedMessage : List Char := "Your input violated the moderation policy.".data

def apiErrorText (e : List Char) : List Char := "API Error: ".data ++ e

def redactWarning : List Char :=
  "Response contained restricted content that was redacted".data

def inputBlockedTag : List Char := "input_blocked".data

def noModerationTag : List Char := "none".data

def outputRedactedTag : List Char := "output_redacted".data

def passedTag : List Char := "passed".data

/-- Embedding of `AIChat.send_message` over the stored keyword list `kws`, with the
behaviour of the external call abstracted as `api`.  The field access
`ai_response[...choices...][0][...message...][...content...]` on a body missing the
field raises KeyError, which the except clause (which only names
RequestException) does not catch: that path is `SendOutcome.raises`. -/
def send_message (kws : List (List Char)) (api : ApiOutcome)
    (user_prompt : List Char) : SendOutcome :=
  match check_input kws user_prompt with
  | (is_safe, reason) =>
    if is_safe then
      match api with
      | .transportError e => .returns (.error (apiErrorText e) noModerationTag)
      | .response none => .raises
      | .response (some ai_message) =>
        match moderate_output kws ai_message with
        | (moderated_message, was_modified) =>
          if was_modified then
            .returns (.moderated moderated_message outputRedactedTag redactWarning)
          else
            .returns (.success moderated_message passedTag)
    else
      .returns (.blocked blockedMessage reason inputBlockedTag)

/-! ## Basic lemmas about the string primitives -/

theorem startsWithCI_length : ∀ {kw s : List Char}, startsWithCI kw s = true →
    kw.length ≤ s.length := by
  intro kw
  induction kw with
  | nil => simp
  | cons k ks ih =>
    intro s h
    cases s with
    | nil => simp [startsWithCI] at h
    | cons c cs =>
      simp only [startsWithCI, Bool.and_eq_true] at h
      simpa using ih h.2

theorem subCIGo_skip (kw marker : List Char) :
    ∀ (n : Nat) (text : List Char), n ≤ text.length →
      subCIGo kw marker n text = subCIGo kw marker 0 (text.drop n) := by
  intro n
  induction n with
  | zero => intro text _; rfl
  | succ m ih =>
    intro text h
    cases text with
    | nil => simp at h
    | cons c rest =>
      show subCIGo kw marker m rest = _
      rw [ih rest (by simpa using h)]
      rfl

theorem subCIRun_eq (kw marker : List Char) (text : List Char) :
    subCIRun kw marker text = subCI kw marker text := by
  induction text using subCI.induct kw marker with
  | case1 hkw => simp [subCIRun, subCIGo, subCI, hkw]
  | case2 hkw => simp [subCIRun, subCIGo, subCI, hkw]
  | case3 c rest hsw hkw ih =>
    rw [subCI]
    rw [if_pos hsw, if_pos hkw]
    rw [← ih]
    simp [subCIRun, subCIGo, hsw, hkw]
  | case4 c rest hsw hkw ih =>
    rw [subCI]
    rw [if_pos hsw, if_neg hkw]
    rw [← ih]
    have hlen : kw.length - 1 ≤ rest.length := by
      have := startsWithCI_length hsw
      simp at this
      omega
    simp only [subCIRun, subCIGo, hsw, if_pos, hkw, if_neg]
    rw [subCIGo_skip kw marker (kw.length - 1) rest hlen]
    simp [hkw]
  | case5 c rest hsw ih =>
    rw [subCI]
    rw [if_neg hsw]
    rw [← ih]
    simp [subCIRun, subCIGo, hsw]

theorem containsSub_nil_needle : ∀ hay : List Char, containsSub hay [] = true := by
  intro hay
  cases hay with
  | nil => rfl
  | cons h t => simp [containsSub, matchesFront]

theorem matchesFront_lower (kw : List Char) :
    ∀ s : List Char, matchesFront kw (lower s) = startsWithCI kw s := by
  induction kw with
  | nil => intro s; cases s <;> rfl
  | cons k ks ih =>
    intro s
    cases s with
    | nil => rfl
    | cons c cs =>
      simp only [lower, List.map_cons, matchesFront, startsWithCI]
      rw [show (cs.map Char.toLower) = lower cs from rfl, ih]

theorem occursCI_eq (kw : List Char) :
    ∀ s : List Char, occursCI kw s = containsSub (lower s) kw := by
  intro s
  induction s with
  | nil => rfl
  | cons c cs ih =>
    simp only [occursCI, lower, List.map_cons, containsSub]
    rw [show (c.toLower :: cs.map Char.toLower) = lower (c :: cs) by simp [lower]]
    rw [matchesFront_lower, show (cs.map Char.toLower) = lower cs from rfl, ← ih]

/-! ## Lemmas about `check_input` -/

theorem firstMatch_eq_find (tl : List Char) (kws : List (List Char)) :
    firstMatch tl kws = kws.find? (fun kw => containsSub tl kw) := by
  induction kws with
  | nil => rfl
  | cons kw rest ih =>
    by_cases h : containsSub tl kw = true
    · simp [firstMatch, h, List.find?_cons_of_pos]
    · rw [firstMatch, if_neg (by simp [h]), ih,
        List.find?_cons_of_neg _ (by simp [h])]

theorem firstMatch_none_anyKeyword (tl : List Char) :
    ∀ kws, firstMatch tl kws = none → anyKeywordIn tl kws = false := by
  intro kws
  induction kws with
  | nil => intro _; rfl
  | cons kw rest ih =>
    intro h
    by_cases hk : containsSub tl kw = true
    · simp [firstMatch, hk] at h
    · rw [firstMatch, if_neg (by simp [hk])] at h
      simp only [anyKeywordIn, Bool.or_eq_false_iff]
      exact ⟨by simpa using hk, ih h⟩

theorem anyPatternHit_of_no_kw (tl : List Char) (kws : List (List Char))
    (h : anyKeywordIn tl kws = false) :
    ∀ pats, anyPatternHit tl kws pats = false := by
  intro pats
  induction pats with
  | nil => rfl
  | cons pat rest ih => simp [anyPatternHit, h, ih]

theorem firstMatch_of_none_match (tl : List Char) :
    ∀ kws, (∀ kw ∈ kws, containsSub tl kw = false) → firstMatch tl kws = none := by
  intro kws
  induction kws with
  | nil => intro _; rfl
  | cons kw rest ih =>
    intro h
    rw [firstMatch, if_neg (by simp [h kw (by simp)])]
    exact ih (fun k hk => h k (List.mem_cons_of_mem _ hk))

theorem firstMatch_isSome_of_mem (tl : List Char) :
    ∀ kws kw, kw ∈ kws → containsSub tl kw = true →
      ∃ k, firstMatch tl kws = some k := by
  intro kws
  induction kws with
  | nil => intro kw h; simp at h
  | cons k0 rest ih =>
    intro kw hmem hsub
    by_cases h0 : containsSub tl k0 = true
    · exact ⟨k0, by simp [firstMatch, h0]⟩
    · rcases List.mem_cons.mp hmem with h | h
      · exact absurd (h ▸ hsub) h0
      · obtain ⟨k, hk⟩ := ih kw h hsub
        exact ⟨k, by rw [firstMatch, if_neg (by simp [h0]), hk]⟩

theorem take17_prohibited (kw : List Char) :
    (prohibitedReason kw).take 17 = "Input contains pr".data := by
  rw [prohibitedReason, List.take_append_eq_append_take]
  norm_num

theorem prohibitedReason_ne_harmful (kw : List Char) :
    prohibitedReason kw ≠ harmfulReason := by
  intro h
  have h17 := congrArg (fun l => List.take 17 l) h
  simp only at h17
  rw [take17_prohibited] at h17
  exact absurd h17 (by decide)

/-! ## The input-check claims -/

/-- C2: when some banned term occurs in the lowercased text, `check_input`
rejects with the reason naming the first matching term in vocabulary order
(first match wins). -/
theorem C2_first_match_wins (v : List (List Char)) (text k : List Char)
    (h : (mkModeration v).find? (fun kw => containsSub (lower text) kw) = some k) :
    check_input (mkModeration v) text = (false, prohibitedReason k) := by
  have hfm : firstMatch (lower text) (mkModeration v) = some k := by
    rw [firstMatch_eq_find]; exact h
  simp [check_input, hfm]

theorem C2_witness :
    (mkModeration ["KILL".data, "drug".data]).find?
        (fun kw => containsSub (lower "The drug war can kill".data) kw)
        = some "kill".data ∧
      check_input (mkModeration ["KILL".data, "drug".data]) "The drug war can kill".data
        = (false, prohibitedReason "kill".data) :=
  ⟨by decide, C2_first_match_wins ["KILL".data, "drug".data] "The drug war can kill".data
    "kill".data (by decide)⟩

/-- C4: the secondary sensitive-pattern pass of `check_input` is
unreachable — `check_input` coincides with the single-pass scan and never
returns the reason `"Input contains potentially harmful request"`. -/
theorem C4_second_pass_dead (kws : List (List Char)) (text : List Char) :
    check_input kws text = checkInputSinglePass kws text ∧
      (check_input kws text).2 ≠ harmfulReason := by
  rcases hfm : firstMatch (lower text) kws with _ | k
  · have hany := firstMatch_none_anyKeyword (lower text) kws hfm
    have hpat := anyPatternHit_of_no_kw (lower text) kws hany SENSITIVE_PATTERNS
    constructor
    · simp [check_input, checkInputSinglePass, hfm, hpat]
    · simp only [check_input, hfm, hpat]
      decide
  · constructor
    · simp [check_input, checkInputSinglePass, hfm]
    · simp only [check_input, hfm]
      exact prohibitedReason_ne_harmful k

/-- C8: text in which no banned term and no sensitive pattern occurs passes
`check_input`; in particular the France scenario passes with the
vocabulary fixed in the source. -/
theorem C8_clean_input_passes :
    (∀ (kws : List (List Char)) (text : List Char),
        (∀ kw ∈ kws, containsSub (lower text) kw = false) →
        (∀ pat ∈ SENSITIVE_PATTERNS, containsSub (lower text) pat = false) →
        check_input kws text = (true, passedReason)) ∧
      check_input (mkModeration BANNED_KEYWORDS) "What is the capital of France?".data
        = (true, passedReason) := by
  constructor
  · intro kws text hkw _
    have hfm := firstMatch_of_none_match (lower text) kws hkw
    have hany := firstMatch_none_anyKeyword (lower text) kws hfm
    have hpat := anyPatternHit_of_no_kw (lower text) kws hany SENSITIVE_PATTERNS
    simp [check_input, hfm, hpat]
  · decide

theorem C8_witness :
    (∀ kw ∈ mkModeration ["kill".data], containsSub (lower "hello".data) kw = false) ∧
      check_input (mkModeration ["kill".data]) "hello".data = (true, passedReason) :=
  ⟨by decide, C8_clean_input_passes.1 (mkModeration ["kill".data]) "hello".data
    (by decide) (by decide)⟩

/-- C10: an empty banned term makes `check_input` reject every text,
because the empty string is a substring of every string. -/
theorem C10_empty_term_blocks_all (v : List (List Char)) (text : List Char)
    (h : ∃ s ∈ v, lower s = []) :
    (check_input (mkModeration v) text).1 = false := by
  obtain ⟨s, hs, hlow⟩ := h
  have hmem : ([] : List Char) ∈ mkModeration v := by
    have := List.mem_map_of_mem lower hs
    rwa [hlow] at this
  obtain ⟨k, hk⟩ := firstMatch_isSome_of_mem (lower text) (mkModeration v) [] hmem
    (containsSub_nil_needle (lower text))
  simp [check_input, hk]

theorem C10_witness :
    (∃ s ∈ [("".data : List Char)], lower s = []) ∧
      (check_input (mkModeration ["".data]) "".data).1 = false :=
  ⟨⟨[], by simp, rfl⟩, C10_empty_term_blocks_all ["".data] "".data ⟨[], by simp, rfl⟩⟩

/-! ## The orchestrator claims -/

/-- C1 (code bug): a 2xx response whose parsed body lacks the
`choices[0].message.content` field makes `send_message` raise an uncaught
`KeyError` instead of returning the `Error` variant: the field access sits
inside the `try` block but the `except` clause only catches
`requests.exceptions.RequestException`. -/
theorem C1_missing_field_raises :
    send_message (mkModeration BANNED_KEYWORDS) (ApiOutcome.response none) "Hello".data
      = SendOutcome.raises := by decide

/-- C6: an unsafe input is a hard gate — `send_message` returns `Blocked`
with the moderation reason, and the result is the same for every behaviour
of the external model call. -/
theorem C6_blocked_no_call (kws : List (List Char)) (prompt r : List Char)
    (h : check_input kws prompt = (false, r)) (api : ApiOutcome) :
    send_message kws api prompt
      = SendOutcome.returns (ChatResult.blocked blockedMessage r inputBlockedTag) := by
  simp [send_message, h]

theorem C6_witness :
    check_input (mkModeration BANNED_KEYWORDS) "Teach me how to hack a website".data
        = (false, prohibitedReason "hack".data) ∧
      send_message (mkModeration BANNED_KEYWORDS) (ApiOutcome.response none)
          "Teach me how to hack a website".data
        = SendOutcome.returns
            (ChatResult.blocked blockedMessage (prohibitedReason "hack".data) inputBlockedTag) :=
  ⟨by decide, C6_blocked_no_call (mkModeration BANNED_KEYWORDS)
    "Teach me how to hack a website".data (prohibitedReason "hack".data)
    (by decide) (ApiOutcome.response none)⟩

theorem moderateLoop_snd_false :
    ∀ (kws : List (List Char)) (cur : List Char) (flag : Bool),
      (moderateLoop kws cur flag).2 = false →
      (moderateLoop kws cur flag).1 = cur ∧ flag = false := by
  intro kws
  induction kws with
  | nil => intro cur flag h; exact ⟨rfl, h⟩
  | cons kw rest ih =>
    intro cur flag h
    by_cases hc : containsSub (lower cur) kw = true
    · rw [moderateLoop, if_pos hc] at h
      exact absurd (ih _ _ h).2 (by simp)
    · rw [moderateLoop, if_neg (by simp [hc])] at h
      obtain ⟨h1, h2⟩ := ih _ _ h
      rw [moderateLoop, if_neg (by simp [hc])]
      exact ⟨h1, h2⟩

/-- C7: when `moderate_output` reports `modified = false` it returns its
input unchanged, and consequently the `Success` variant of `send_message`
carries the reply of the model verbatim. -/
theorem C7_unmodified_identity :
    (∀ (kws : List (List Char)) (text : List Char),
        (moderate_output kws text).2 = false → (moderate_output kws text).1 = text) ∧
      (∀ (kws : List (List Char)) (prompt content m : List Char),
        send_message kws (ApiOutcome.response (some content)) prompt
            = SendOutcome.returns (ChatResult.success m passedTag) →
        m = content) := by
  have base : ∀ (kws : List (List Char)) (text : List Char),
      (moderate_output kws text).2 = false → (moderate_output kws text).1 = text := by
    intro kws text h
    exact (moderateLoop_snd_false kws text false h).1
  refine ⟨base, ?_⟩
  intro kws prompt content m h
  rcases hc : check_input kws prompt with ⟨is_safe, reason⟩
  rcases hm : moderate_output kws content with ⟨mm, wm⟩
  simp only [send_message, hc, hm] at h
  cases is_safe
  · simp at h
  · cases wm
    · simp at h
      have := base kws content (by rw [hm])
      rw [hm] at this
      rw [← h]
      exact this
    · simp at h

theorem C7_witness :
    (moderate_output (mkModeration BANNED_KEYWORDS) "The capital is Paris.".data).1
        = "The capital is Paris.".data ∧
      ("Paris".data : List Char) = "Paris".data :=
  ⟨C7_unmodified_identity.1 (mkModeration BANNED_KEYWORDS) "The capital is Paris.".data
      (by decide),
    C7_unmodified_identity.2 (mkModeration BANNED_KEYWORDS) "Hi".data "Paris".data
      "Paris".data (by decide)⟩

/-! ## Lemmas about `moderate_output` -/

theorem moderateLoop_fst_eq_spec :
    ∀ (kws : List (List Char)) (cur : List Char) (flag : Bool),
      (moderateLoop kws cur flag).1 = moderateOutputSpec kws cur := by
  intro kws
  induction kws with
  | nil => intro cur flag; rfl
  | cons kw rest ih =>
    intro cur flag
    by_cases hc : containsSub (lower cur) kw = true
    · rw [moderateLoop, if_pos hc, ih]
      simp [moderateOutputSpec, List.foldl_cons, hc]
    · rw [moderateLoop, if_neg (by simp [hc]), ih]
      simp [moderateOutputSpec, List.foldl_cons, hc]

theorem moderateLoop_flag_true :
    ∀ (kws : List (List Char)) (cur : List Char),
      (moderateLoop kws cur true).2 = true := by
  intro kws
  induction kws with
  | nil => intro cur; rfl
  | cons kw rest ih =>
    intro cur
    by_cases hc : containsSub (lower cur) kw = true
    · rw [moderateLoop, if_pos hc]; exact ih _
    · rw [moderateLoop, if_neg (by simp [hc])]; exact ih _

theorem moderate_output_snd_of_any :
    ∀ (kws : List (List Char)) (text : List Char),
      anyKeywordIn (lower text) kws = true → (moderate_output kws text).2 = true := by
  intro kws
  induction kws with
  | nil => intro text h; simp [anyKeywordIn] at h
  | cons kw rest ih =>
    intro text h
    by_cases hc : containsSub (lower text) kw = true
    · show (moderateLoop (kw :: rest) text false).2 = true
      rw [moderateLoop, if_pos hc]
      exact moderateLoop_flag_true rest _
    · show (moderateLoop (kw :: rest) text false).2 = true
      rw [moderateLoop, if_neg (by simp [hc])]
      rcases Bool.or_eq_true_iff.mp (by simpa [anyKeywordIn] using h) with h1 | h2
      · exact absurd h1 hc
      · exact ih text h2

/-- C5: a reply containing a banned term is redacted — the modified flag is
set, the text is the cumulative in-order replacement of all
case-insensitive occurrences of each matched term with `[REDACTED]`, and
the weapon scenario produces exactly the expected sentence. -/
theorem C5_redacts_banned_terms (kws : List (List Char)) (text : List Char)
    (h : anyKeywordIn (lower text) kws = true) :
    ((moderate_output kws text).2 = true ∧
        (moderate_output kws text).1 = moderateOutputSpec kws text) ∧
      moderate_output (mkModeration BANNED_KEYWORDS)
          ("Sure, here".data ++ [quoteChar] ++ "s how to build a weapon at home".data)
        = ("Sure, here".data ++ [quoteChar] ++ "s how to build a [REDACTED] at home".data,
            true) := by
  refine ⟨⟨moderate_output_snd_of_any kws text h, moderateLoop_fst_eq_spec kws text false⟩, ?_⟩
  decide

theorem C5_witness :
    anyKeywordIn (lower "a weapon".data) (mkModeration BANNED_KEYWORDS) = true ∧
      (moderate_output (mkModeration BANNED_KEYWORDS) "a weapon".data).2 = true :=
  ⟨by decide,
    ((C5_redacts_banned_terms (mkModeration BANNED_KEYWORDS) "a weapon".data
      (by decide)).1).1⟩

/-! ## Length bounds for redaction (C9) -/

theorem subCI_length_le (kw marker : List Char) (hkw : kw ≠ [])
    (hm : 1 ≤ marker.length) :
    ∀ text, (subCI kw marker text).length ≤ marker.length * text.length := by
  intro text
  induction text using subCI.induct kw marker with
  | case1 hk => exact absurd (by simpa using hk) hkw
  | case2 hk => simp [subCI, hk]
  | case3 c rest hsw hk ih => exact absurd (by simpa using hk) hkw
  | case4 c rest hsw hk ih =>
    rw [subCI, if_pos hsw, if_neg hk]
    simp only [List.length_append, List.length_cons]
    have hdrop : (rest.drop (kw.length - 1)).length ≤ rest.length := by
      simp [List.length_drop]
    calc marker.length + (subCI kw marker (rest.drop (kw.length - 1))).length
        ≤ marker.length + marker.length * (rest.drop (kw.length - 1)).length :=
          Nat.add_le_add_left ih _
      _ ≤ marker.length + marker.length * rest.length :=
          Nat.add_le_add_left (Nat.mul_le_mul_left _ hdrop) _
      _ = marker.length * (rest.length + 1) := by ring
  | case5 c rest hsw ih =>
    rw [subCI, if_neg hsw]
    simp only [List.length_cons]
    calc (subCI kw marker rest).length + 1
        ≤ marker.length * rest.length + 1 := Nat.add_le_add_right ih 1
      _ ≤ marker.length * rest.length + marker.length := Nat.add_le_add_left hm _
      _ = marker.length * (rest.length + 1) := by ring

theorem subCIRun_length_le (kw text : List Char) (hkw : kw ≠ []) :
    (subCIRun kw redactedMarker text).length ≤ 10 * text.length := by
  rw [subCIRun_eq]
  have h10 : redactedMarker.length = 10 := rfl
  have := subCI_length_le kw redactedMarker hkw (by rw [h10]; omega) text
  rwa [h10] at this

theorem moderateLoop_length_le :
    ∀ (kws : List (List Char)) (cur : List Char) (flag : Bool),
      (∀ kw ∈ kws, kw ≠ []) →
      ((moderateLoop kws cur flag).1).length ≤ 10 ^ kws.length * cur.length := by
  intro kws
  induction kws with
  | nil => intro cur flag _; simp [moderateLoop]
  | cons kw rest ih =>
    intro cur flag h
    have hkw : kw ≠ [] := h kw (by simp)
    have hrest : ∀ k ∈ rest, k ≠ [] := fun k hk => h k (List.mem_cons_of_mem _ hk)
    have hpow : 10 ^ rest.length * (10 * cur.length) = 10 ^ (kw :: rest).length * cur.length := by
      simp [List.length_cons, pow_succ]
      ring
    by_cases hc : containsSub (lower cur) kw = true
    · rw [moderateLoop, if_pos hc]
      calc ((moderateLoop rest (subCIRun kw redactedMarker cur) true).1).length
          ≤ 10 ^ rest.length * (subCIRun kw redactedMarker cur).length := ih _ _ hrest
        _ ≤ 10 ^ rest.length * (10 * cur.length) :=
            Nat.mul_le_mul_left _ (subCIRun_length_le kw cur hkw)
        _ = 10 ^ (kw :: rest).length * cur.length := hpow
    · rw [moderateLoop, if_neg (by simp [hc])]
      calc ((moderateLoop rest cur flag).1).length
          ≤ 10 ^ rest.length * cur.length := ih _ _ hrest
        _ ≤ 10 ^ (kw :: rest).length * cur.length := by
            have : (10 : Nat) ^ rest.length ≤ 10 ^ (kw :: rest).length :=
              Nat.pow_le_pow_right (by omega) (by simp)
            exact Nat.mul_le_mul_right _ this

/-- C9: redaction growth is bounded by the fixed marker length 10 — each
single-term pass at most 10-folds the length of its input, and a full pass
over `K` non-empty terms at most `10 ^ K`-folds the original length. -/
theorem C9_growth_bounded :
    (∀ (kw text : List Char), kw ≠ [] →
        (subCIRun kw redactedMarker text).length ≤ 10 * text.length) ∧
      (∀ (kws : List (List Char)) (text : List Char), (∀ kw ∈ kws, kw ≠ []) →
        ((moderate_output kws text).1).length ≤ 10 ^ kws.length * text.length) := by
  refine ⟨fun kw text hkw => subCIRun_length_le kw text hkw, ?_⟩
  intro kws text h
  exact moderateLoop_length_le kws text false h

theorem C9_witness :
    ("ab".data : List Char) ≠ [] ∧
      (subCIRun "ab".data redactedMarker "xabab".data).length ≤ 10 * ("xabab".data).length ∧
      (moderate_output ["ab".data] "xabab".data).1.length
        ≤ 10 ^ (["ab".data] : List (List Char)).length * ("xabab".data).length :=
  ⟨by decide, C9_growth_bounded.1 "ab".data "xabab".data (by decide),
    C9_growth_bounded.2 ["ab".data] "xabab".data (by decide)⟩

/-! ## Structure of `subCI`: marker-joined gaps (towards C3) -/

theorem subCI_nil (kw marker : List Char) (hkw : kw ≠ []) :
    subCI kw marker [] = [] := by
  rw [subCI, if_neg (by simp [List.isEmpty_iff, hkw])]

theorem subCI_cons_pos (kw marker : List Char) (hkw : kw ≠ []) (c : Char)
    (rest : List Char) (hsw : startsWithCI kw (c :: rest) = true) :
    subCI kw marker (c :: rest)
      = marker ++ subCI kw marker (rest.drop (kw.length - 1)) := by
  rw [subCI, if_pos hsw, if_neg (by simp [List.isEmpty_iff, hkw])]

theorem subCI_cons_neg (kw marker : List Char) (c : Char) (rest : List Char)
    (hsw : ¬ startsWithCI kw (c :: rest) = true) :
    subCI kw marker (c :: rest) = c :: subCI kw marker rest := by
  rw [subCI, if_neg hsw]

theorem splitCI_cons_pos (kw : List Char) (c : Char) (rest : List Char)
    (hsw : startsWithCI kw (c :: rest) = true) :
    splitCI kw (c :: rest) = [] :: splitCI kw (rest.drop (kw.length - 1)) := by
  simp only [splitCI]
  rw [if_pos hsw]

theorem splitCI_cons_neg (kw : List Char) (c : Char) (rest g : List Char)
    (gs : List (List Char)) (hsw : ¬ startsWithCI kw (c :: rest) = true)
    (hsplit : splitCI kw rest = g :: gs) :
    splitCI kw (c :: rest) = (c :: g) :: gs := by
  simp only [splitCI]
  rw [if_neg hsw, hsplit]

theorem splitCI_ne_nil (kw : List Char) : ∀ text, splitCI kw text ≠ [] := by
  intro text
  induction text using splitCI.induct kw with
  | case1 => simp [splitCI]
  | case2 c rest hsw ih => rw [splitCI_cons_pos kw c rest hsw]; simp
  | case3 c rest hsw hnil ih =>
    have heq : splitCI kw (c :: rest) = [[c]] := by
      simp only [splitCI]
      rw [if_neg hsw, hnil]
    simp [heq]
  | case4 c rest hsw g gs hsplit ih =>
    rw [splitCI_cons_neg kw c rest g gs hsw hsplit]
    simp

theorem splitCI_head_pre (kw : List Char) :
    ∀ text g gs, splitCI kw text = g :: gs → ∃ t', text = g ++ t' := by
  intro text
  induction text using splitCI.induct kw with
  | case1 =>
    intro g gs h
    simp only [splitCI] at h
    obtain ⟨hg, -⟩ := List.cons.inj h.symm
    exact ⟨[], by simp [← hg]⟩
  | case2 c rest hsw ih =>
    intro g gs h
    rw [splitCI_cons_pos kw c rest hsw] at h
    obtain ⟨hg, -⟩ := List.cons.inj h
    exact ⟨c :: rest, by simp [← hg]⟩
  | case3 c rest hsw hnil ih => exact absurd hnil (splitCI_ne_nil kw rest)
  | case4 c rest hsw g0 gs0 hsplit ih =>
    intro g gs h
    rw [splitCI_cons_neg kw c rest g0 gs0 hsw hsplit] at h
    obtain ⟨hg, -⟩ := List.cons.inj h
    obtain ⟨t', ht⟩ := ih g0 gs0 hsplit
    exact ⟨t', by rw [← hg, ht]; rfl⟩

theorem subCI_eq_join (kw marker : List Char) (hkw : kw ≠ []) :
    ∀ text, subCI kw marker text = joinWith marker (splitCI kw text) := by
  intro text
  induction text using splitCI.induct kw with
  | case1 =>
    rw [subCI_nil kw marker hkw]
    simp only [splitCI]
    rfl
  | case2 c rest hsw ih =>
    rw [subCI_cons_pos kw marker hkw c rest hsw, splitCI_cons_pos kw c rest hsw, ih]
    rcases hd : splitCI kw (rest.drop (kw.length - 1)) with _ | ⟨g, gs⟩
    · exact absurd hd (splitCI_ne_nil kw _)
    · rfl
  | case3 c rest hsw hnil ih => exact absurd hnil (splitCI_ne_nil kw rest)
  | case4 c rest hsw g gs hsplit ih =>
    rw [subCI_cons_neg kw marker c rest hsw, ih, hsplit,
      splitCI_cons_neg kw c rest g gs hsw hsplit]
    cases gs with
    | nil => rfl
    | cons g2 gs2 => rfl

/-! ## Occurrence lemmas (towards C3) -/

theorem occursCI_nil_of_ne (kw : List Char) (hkw : kw ≠ []) :
    occursCI kw [] = false := by
  cases kw with
  | nil => exact absurd rfl hkw
  | cons k ks => rfl

theorem sw_extend (Y : List Char) :
    ∀ (kw X : List Char), startsWithCI kw X = true → startsWithCI kw (X ++ Y) = true := by
  intro kw
  induction kw with
  | nil => intro X _; rfl
  | cons k ks ih =>
    intro X h
    cases X with
    | nil => simp [startsWithCI] at h
    | cons x xs =>
      simp only [startsWithCI, Bool.and_eq_true] at h
      simp only [List.cons_append, startsWithCI, Bool.and_eq_true]
      exact ⟨h.1, ih xs h.2⟩

theorem sw_to_occ (kw s : List Char) (h : startsWithCI kw s = true) :
    occursCI kw s = true := by
  cases s with
  | nil =>
    cases kw with
    | nil => rfl
    | cons k ks => simp [startsWithCI] at h
  | cons c cs => simp [occursCI, h]

theorem occ_append_right (kw B : List Char) (h : occursCI kw B = true) :
    ∀ A, occursCI kw (A ++ B) = true := by
  intro A
  induction A with
  | nil => simpa using h
  | cons a A' ih => simp [occursCI, ih]

theorem occ_append_left (kw B : List Char) :
    ∀ A, occursCI kw A = true → occursCI kw (A ++ B) = true := by
  intro A
  induction A with
  | nil =>
    intro h
    have : kw = [] := by simpa [occursCI, List.isEmpty_iff] using h
    subst this
    cases B with
    | nil => rfl
    | cons b bs => rfl
  | cons a A' ih =>
    intro h
    rcases Bool.or_eq_true_iff.mp (by simpa [occursCI] using h) with h1 | h2
    · have := sw_extend B kw (a :: A') h1
      rw [List.cons_append] at this
      simp [occursCI, this]
    · simp [occursCI, ih h2]

theorem sw_split :
    ∀ (kw X Y : List Char), startsWithCI kw (X ++ Y) = true →
      startsWithCI kw X = true ∨
        ∃ k2, kw = lower X ++ k2 ∧ k2 ≠ [] ∧ startsWithCI k2 Y = true := by
  intro kw
  induction kw with
  | nil => intro X Y _; exact Or.inl rfl
  | cons k ks ih =>
    intro X Y h
    cases X with
    | nil => exact Or.inr ⟨k :: ks, by simp [lower], by simp, by simpa using h⟩
    | cons x xs =>
      rw [List.cons_append] at h
      simp only [startsWithCI, Bool.and_eq_true] at h
      rcases ih xs Y h.2 with h1 | ⟨k2, heq, hne, hY⟩
      · exact Or.inl (by simp [startsWithCI, h.1, h1])
      · refine Or.inr ⟨k2, ?_, hne, hY⟩
        have hk : k = x.toLower := by simpa using h.1
        subst hk
        rw [heq]
        simp [lower]

theorem occ_m_skip (kw m : List Char)
    (hnom : occursCI kw m = false)
    (hlast : ∀ m0 cL, m = m0 ++ [cL] → cL.toLower ∉ kw) :
    ∀ (s pre : List Char), m = pre ++ s →
      ∀ B, occursCI kw (s ++ B) = true → occursCI kw B = true := by
  intro s
  induction s with
  | nil => intro pre hm B h; simpa using h
  | cons c s' ih =>
    intro pre hm B h
    rcases Bool.or_eq_true_iff.mp (by simpa [occursCI] using h) with h1 | h2
    · rcases sw_split kw (c :: s') B h1 with hsw | ⟨k2, heq, hne, hY⟩
      · exfalso
        have hoc : occursCI kw m = true := by
          rw [hm]
          exact occ_append_right kw (c :: s') (sw_to_occ kw (c :: s') hsw) pre
        rw [hoc] at hnom
        exact absurd hnom (by simp)
      · exfalso
        rcases List.eq_nil_or_concat (c :: s') with hnil | ⟨L, b, hLb⟩
        · simp at hnil
        · rw [List.concat_eq_append] at hLb
          have hm2 : m = (pre ++ L) ++ [b] := by rw [hm, hLb, List.append_assoc]
          have hbnot := hlast (pre ++ L) b hm2
          have hbin : b.toLower ∈ kw := by
            rw [heq, hLb]
            simp [lower]
          exact absurd hbin hbnot
    · exact ih (pre ++ [c]) (by rw [hm]; simp) B h2

theorem occ_append_split (kw m : List Char) (hkw : kw ≠ []) (hm : m ≠ [])
    (hhead : ∀ mh mt, m = mh :: mt → mh.toLower ∉ kw)
    (hnom : occursCI kw m = false)
    (hlast : ∀ m0 cL, m = m0 ++ [cL] → cL.toLower ∉ kw) :
    ∀ (A B : List Char), occursCI kw (A ++ (m ++ B)) = true →
      occursCI kw A = true ∨ occursCI kw B = true := by
  intro A
  induction A with
  | nil =>
    intro B h
    exact Or.inr (occ_m_skip kw m hnom hlast m [] (by simp) B (by simpa using h))
  | cons a A' ih =>
    intro B h
    rw [List.cons_append] at h
    rcases Bool.or_eq_true_iff.mp (by simpa [occursCI] using h) with h1 | h2
    · rcases sw_split kw (a :: A') (m ++ B) (by rw [List.cons_append]; exact h1)
          with hsw | ⟨k2, heq, hne, hY⟩
      · exact Or.inl (sw_to_occ kw (a :: A') hsw)
      · cases m with
        | nil => exact absurd rfl hm
        | cons mh mt =>
          cases k2 with
          | nil => exact absurd rfl hne
          | cons c2 ks2 =>
            rw [List.cons_append] at hY
            simp only [startsWithCI, Bool.and_eq_true, beq_iff_eq] at hY
            have hc2 : c2 ∈ kw := by rw [heq]; simp
            rw [hY.1] at hc2
            exact absurd hc2 (hhead mh mt rfl)
    · rcases ih B h2 with hA | hB
      · exact Or.inl (by simp [occursCI, hA])
      · exact Or.inr hB

theorem occ_in_join (kw m : List Char) (hkw : kw ≠ []) (hm : m ≠ [])
    (hhead : ∀ mh mt, m = mh :: mt → mh.toLower ∉ kw)
    (hnom : occursCI kw m = false)
    (hlast : ∀ m0 cL, m = m0 ++ [cL] → cL.toLower ∉ kw) :
    ∀ gaps, occursCI kw (joinWith m gaps) = true →
      ∃ g ∈ gaps, occursCI kw g = true := by
  intro gaps
  induction gaps with
  | nil =>
    intro h
    rw [show joinWith m [] = [] from rfl, occursCI_nil_of_ne kw hkw] at h
    exact absurd h (by simp)
  | cons g rest ih =>
    intro h
    cases rest with
    | nil => exact ⟨g, by simp, h⟩
    | cons g2 gs =>
      rw [show joinWith m (g :: g2 :: gs) = g ++ m ++ joinWith m (g2 :: gs) from rfl,
        List.append_assoc] at h
      rcases occ_append_split kw m hkw hm hhead hnom hlast g (joinWith m (g2 :: gs)) h
          with hA | hB
      · exact ⟨g, by simp, hA⟩
      · obtain ⟨g', hg', hocc⟩ := ih hB
        exact ⟨g', by simp [hg'], hocc⟩

theorem splitCI_gap_no_occ (kw : List Char) (hkw : kw ≠ []) :
    ∀ text g, g ∈ splitCI kw text → occursCI kw g = false := by
  intro text
  induction text using splitCI.induct kw with
  | case1 =>
    intro g hg
    simp only [splitCI, List.mem_singleton] at hg
    subst hg
    exact occursCI_nil_of_ne kw hkw
  | case2 c rest hsw ih =>
    intro g hg
    rw [splitCI_cons_pos kw c rest hsw] at hg
    rcases List.mem_cons.mp hg with hg | hg
    · subst hg
      exact occursCI_nil_of_ne kw hkw
    · exact ih g hg
  | case3 c rest hsw hnil ih => exact absurd hnil (splitCI_ne_nil kw rest)
  | case4 c rest hsw g0 gs hsplit ih =>
    intro g hg
    rw [splitCI_cons_neg kw c rest g0 gs hsw hsplit] at hg
    rcases List.mem_cons.mp hg with hg | hg
    · subst hg
      have hocc0 : occursCI kw g0 = false := ih g0 (by rw [hsplit]; simp)
      have hsw0 : startsWithCI kw (c :: g0) = false := by
        obtain ⟨t', ht⟩ := splitCI_head_pre kw rest g0 gs hsplit
        by_contra hx
        have hx' : startsWithCI kw (c :: g0) = true := by
          cases hy : startsWithCI kw (c :: g0)
          · exact absurd hy hx
          · rfl
        have := sw_extend t' kw (c :: g0) hx'
        rw [List.cons_append, ← ht] at this
        exact hsw this
      simp [occursCI, hsw0, hocc0]
    · exact ih g (by rw [hsplit]; simp [hg])

/-! ## Redaction preserves and establishes term absence (towards C3) -/

theorem splitCI_gap_decomp (kw : List Char) :
    ∀ text g, g ∈ splitCI kw text → ∃ p q, text = p ++ (g ++ q) := by
  intro text
  induction text using splitCI.induct kw with
  | case1 =>
    intro g hg
    simp only [splitCI, List.mem_singleton] at hg
    exact ⟨[], [], by simp [hg]⟩
  | case2 c rest hsw ih =>
    intro g hg
    rw [splitCI_cons_pos kw c rest hsw] at hg
    rcases List.mem_cons.mp hg with hg | hg
    · exact ⟨[], c :: rest, by simp [hg]⟩
    · obtain ⟨p, q, hpq⟩ := ih g hg
      refine ⟨c :: (rest.take (kw.length - 1) ++ p), q, ?_⟩
      have htd : rest.take (kw.length - 1) ++ rest.drop (kw.length - 1) = rest :=
        List.take_append_drop _ _
      rw [List.cons_append]
      rw [List.append_assoc, ← hpq, htd]
  | case3 c rest hsw hnil ih => exact absurd hnil (splitCI_ne_nil kw rest)
  | case4 c rest hsw g0 gs hsplit ih =>
    intro g hg
    rw [splitCI_cons_neg kw c rest g0 gs hsw hsplit] at hg
    rcases List.mem_cons.mp hg with hg | hg
    · obtain ⟨t', ht⟩ := splitCI_head_pre kw rest g0 gs hsplit
      exact ⟨[], t', by simp [hg, ht]⟩
    · obtain ⟨p, q, hpq⟩ := ih g (by rw [hsplit]; simp [hg])
      exact ⟨c :: p, q, by rw [List.cons_append, hpq]⟩

theorem occ_subCI_pres (kw kw2 marker text : List Char) (hkw : kw ≠ [])
    (hkw2 : kw2 ≠ []) (hm : marker ≠ [])
    (hhead : ∀ mh mt, marker = mh :: mt → mh.toLower ∉ kw2)
    (hnom : occursCI kw2 marker = false)
    (hlast : ∀ m0 cL, marker = m0 ++ [cL] → cL.toLower ∉ kw2)
    (habs : occursCI kw2 text = false) :
    occursCI kw2 (subCI kw marker text) = false := by
  by_contra hx
  have hocc : occursCI kw2 (subCI kw marker text) = true := by
    cases hy : occursCI kw2 (subCI kw marker text)
    · exact absurd hy hx
    · rfl
  rw [subCI_eq_join kw marker hkw] at hocc
  obtain ⟨g, hg, hog⟩ :=
    occ_in_join kw2 marker hkw2 hm hhead hnom hlast (splitCI kw text) hocc
  obtain ⟨p, q, hpq⟩ := splitCI_gap_decomp kw text g hg
  have hot : occursCI kw2 text = true := by
    rw [hpq]
    exact occ_append_right kw2 (g ++ q) (occ_append_left kw2 q g hog) p
  rw [hot] at habs
  exact absurd habs (by simp)

theorem occ_subCI_self (kw marker text : List Char) (hkw : kw ≠ [])
    (hm : marker ≠ [])
    (hhead : ∀ mh mt, marker = mh :: mt → mh.toLower ∉ kw)
    (hnom : occursCI kw marker = false)
    (hlast : ∀ m0 cL, marker = m0 ++ [cL] → cL.toLower ∉ kw) :
    occursCI kw (subCI kw marker text) = false := by
  by_contra hx
  have hocc : occursCI kw (subCI kw marker text) = true := by
    cases hy : occursCI kw (subCI kw marker text)
    · exact absurd hy hx
    · rfl
  rw [subCI_eq_join kw marker hkw] at hocc
  obtain ⟨g, hg, hog⟩ :=
    occ_in_join kw marker hkw hm hhead hnom hlast (splitCI kw text) hocc
  rw [splitCI_gap_no_occ kw hkw text g hg] at hog
  exact absurd hog (by simp)

theorem redactedMarker_ne_nil : redactedMarker ≠ [] := by decide

theorem redacted_head_cond (kw : List Char) (h : (Char.ofNat 91) ∉ kw) :
    ∀ mh mt, redactedMarker = mh :: mt → mh.toLower ∉ kw := by
  intro mh mt hm
  have hred : redactedMarker = Char.ofNat 91 :: "REDACTED]".data := by decide
  obtain ⟨h1, -⟩ := List.cons.inj (hm.symm.trans hred)
  rw [h1, show (Char.ofNat 91).toLower = Char.ofNat 91 by decide]
  exact h

theorem redacted_last_cond (kw : List Char) (h : (Char.ofNat 93) ∉ kw) :
    ∀ m0 cL, redactedMarker = m0 ++ [cL] → cL.toLower ∉ kw := by
  intro m0 cL hm
  have hL : (m0 ++ [cL]).getLast? = some cL := by simp
  rw [← hm, show redactedMarker.getLast? = some (Char.ofNat 93) by decide] at hL
  rw [← Option.some.inj hL, show (Char.ofNat 93).toLower = Char.ofNat 93 by decide]
  exact h

theorem moderateLoop_preserves (kw : List Char) (hkw : kw ≠ [])
    (hbrL : (Char.ofNat 91) ∉ kw) (hbrR : (Char.ofNat 93) ∉ kw)
    (hnom : occursCI kw redactedMarker = false) :
    ∀ (rest : List (List Char)), (∀ k ∈ rest, k ≠ []) →
      ∀ (cur : List Char) (flag : Bool), occursCI kw cur = false →
        occursCI kw (moderateLoop rest cur flag).1 = false := by
  intro rest
  induction rest with
  | nil => intro _ cur flag h; exact h
  | cons k2 r2 ih =>
    intro hne cur flag h
    have hk2 : k2 ≠ [] := hne k2 (by simp)
    have hr2 : ∀ k ∈ r2, k ≠ [] := fun k hk => hne k (List.mem_cons_of_mem _ hk)
    by_cases hc : containsSub (lower cur) k2 = true
    · rw [moderateLoop, if_pos hc]
      refine ih hr2 _ _ ?_
      rw [subCIRun_eq]
      exact occ_subCI_pres k2 kw redactedMarker cur hk2 hkw redactedMarker_ne_nil
        (redacted_head_cond kw hbrL) hnom (redacted_last_cond kw hbrR) h
    · rw [moderateLoop, if_neg (by simp [hc])]
      exact ih hr2 cur flag h

theorem moderateLoop_clears :
    ∀ (kws : List (List Char)),
      (∀ kw ∈ kws, kw ≠ [] ∧ (Char.ofNat 91) ∉ kw ∧ (Char.ofNat 93) ∉ kw ∧
        occursCI kw redactedMarker = false) →
      ∀ (cur : List Char) (flag : Bool) (kw : List Char), kw ∈ kws →
        occursCI kw (moderateLoop kws cur flag).1 = false := by
  intro kws
  induction kws with
  | nil => intro _ cur flag kw h; simp at h
  | cons k rest ih =>
    intro H cur flag kw hmem
    have hk := H k (by simp)
    have Hrest : ∀ kw ∈ rest, kw ≠ [] ∧ (Char.ofNat 91) ∉ kw ∧ (Char.ofNat 93) ∉ kw ∧
        occursCI kw redactedMarker = false :=
      fun kw hkw => H kw (List.mem_cons_of_mem _ hkw)
    have Hrestne : ∀ k2 ∈ rest, k2 ≠ [] := fun k2 h2 => (Hrest k2 h2).1
    by_cases hc : containsSub (lower cur) k = true
    · rw [moderateLoop, if_pos hc]
      rcases List.mem_cons.mp hmem with hkw | hkw
      · subst hkw
        refine moderateLoop_preserves kw hk.1 hk.2.1 hk.2.2.1 hk.2.2.2 rest Hrestne
          _ true ?_
        rw [subCIRun_eq]
        exact occ_subCI_self kw redactedMarker cur hk.1 redactedMarker_ne_nil
          (redacted_head_cond kw hk.2.1) hk.2.2.2 (redacted_last_cond kw hk.2.2.1)
      · exact ih Hrest _ true kw hkw
    · rw [moderateLoop, if_neg (by simp [hc])]
      rcases List.mem_cons.mp hmem with hkw | hkw
      · subst hkw
        refine moderateLoop_preserves kw hk.1 hk.2.1 hk.2.2.1 hk.2.2.2 rest Hrestne
          cur flag ?_
        rw [occursCI_eq]
        simpa using hc
      · exact ih Hrest cur flag kw hkw

theorem moderateLoop_no_change :
    ∀ (kws : List (List Char)) (cur : List Char),
      (∀ kw ∈ kws, occursCI kw cur = false) →
      moderateLoop kws cur false = (cur, false) := by
  intro kws
  induction kws with
  | nil => intro cur _; rfl
  | cons k rest ih =>
    intro cur h
    have hk : containsSub (lower cur) k = false := by
      rw [← occursCI_eq]
      exact h k (by simp)
    rw [moderateLoop, if_neg (by simp [hk])]
    exact ih cur (fun kw hkw => h kw (List.mem_cons_of_mem _ hkw))

/-! ## C3: idempotence of `moderate_output` -/

/-- C3 (counterexample): the vocabulary `["]["]` satisfies the hypothesis
of the claim — `"]["` is not a substring of the marker `"[REDACTED]"`, neither
literally nor case-insensitively — yet re-moderating the output of
`moderate_output` on the text `"][]["` reports `modified = true`: the first
pass yields `"[REDACTED][REDACTED]"`, in which `"]["` occurs across the
boundary between the two markers. -/
theorem C3_counterexample :
    (∀ kw ∈ [("][".data : List Char)],
        containsSub redactedMarker kw = false ∧
          containsSub (lower redactedMarker) kw = false) ∧
      (moderate_output [("][".data : List Char)] "][][".data).1
          = "[REDACTED][REDACTED]".data ∧
      (moderate_output [("][".data : List Char)]
          ((moderate_output [("][".data : List Char)] "][][".data).1)).2 = true := by
  decide

/-- C3 (amended): if every banned term is non-empty, contains neither the
bracket character of code 91 nor the one of code 93, and does not occur
case-insensitively in the marker `"[REDACTED]"` — so that no term can
straddle or sit inside an inserted marker — then `moderate_output` is
idempotent after its own application: a second application returns its
input with `modified = false`.  The hypothesis holds for the vocabulary
fixed in the source (see the witness). -/
theorem C3_amended_idempotent (kws : List (List Char))
    (H : ∀ kw ∈ kws, kw ≠ [] ∧ (Char.ofNat 91) ∉ kw ∧ (Char.ofNat 93) ∉ kw ∧
        occursCI kw redactedMarker = false)
    (text : List Char) :
    moderate_output kws ((moderate_output kws text).1)
      = ((moderate_output kws text).1, false) := by
  exact moderateLoop_no_change kws _
    (fun kw hkw => moderateLoop_clears kws H text false kw hkw)

theorem C3_amended_witness :
    (∀ kw ∈ mkModeration BANNED_KEYWORDS,
        kw ≠ [] ∧ (Char.ofNat 91) ∉ kw ∧ (Char.ofNat 93) ∉ kw ∧
          occursCI kw redactedMarker = false) ∧
      moderate_output (mkModeration BANNED_KEYWORDS)
          ((moderate_output (mkModeration BANNED_KEYWORDS)
            ("Sure, here".data ++ [quoteChar] ++ "s how to build a weapon at home".data)).1)
        = ((moderate_output (mkModeration BANNED_KEYWORDS)
            ("Sure, here".data ++ [quoteChar] ++ "s how to build a weapon at home".data)).1,
            false) :=
  ⟨by decide, C3_amended_idempotent (mkModeration BANNED_KEYWORDS) (by decide)
    ("Sure, here".data ++ [quoteChar] ++ "s how to build a weapon at home".data)⟩
